import Mathlib

/-!
Shallow embedding, in Lean 4, of the numerical routines of the
`bs-python-utils` repository (`bsnputils.py` and `distance_covariances.py`),
together with theorems settling the frozen claims about them.

Modelling conventions:
* NumPy arrays are `List ℝ` (1-dim) or functions `Fin n → Fin n → ℝ` (square
  matrices); machine floats are modelled by exact real arithmetic.
* `bs_error_abort` (which prints a message and kills the process) is modelled
  as `Except.error` carrying the message; a Python function that falls off the
  end and returns `None` is modelled as `Option.none` inside `Except.ok`.
* Console output is modelled by an explicit list of print events.
-/

noncomputable section

/-- Minimum of a nonempty list of reals, mirroring `np.min`;
the value on the empty list is arbitrary (NumPy raises there). -/
def minList : List ℝ → ℝ
  | [] => 0
  | a :: t => t.foldl min a

/-- Maximum of a nonempty list of reals, mirroring `np.max`;
the value on the empty list is arbitrary (NumPy raises there). -/
def maxList : List ℝ → ℝ
  | [] => 0
  | a :: t => t.foldl max a

/-- Result of a Python function that may call `bs_error_abort` or `sys.exit`. -/
abbrev NpResult (α : Type) := Except String α

theorem foldl_min_le (t : List ℝ) (b : ℝ) :
    t.foldl min b ≤ b ∧ ∀ a ∈ t, t.foldl min b ≤ a := by
  induction t generalizing b with
  | nil => exact ⟨le_refl b, by simp⟩
  | cons c t ih =>
    refine ⟨?_, ?_⟩
    · exact le_trans ((ih (min b c)).1) (min_le_left b c)
    · intro a ha
      rcases List.mem_cons.mp ha with h | h
      · subst h
        exact le_trans ((ih (min b a)).1) (min_le_right b a)
      · exact (ih (min b c)).2 a h

theorem minList_le (l : List ℝ) (a : ℝ) (ha : a ∈ l) : minList l ≤ a := by
  cases l with
  | nil => cases ha
  | cons b t =>
    rcases List.mem_cons.mp ha with h | h
    · subst h; exact (foldl_min_le t a).1
    · exact (foldl_min_le t b).2 a h

/-! ## `nplog` (bsnputils.py, lines 196-249) -/

/-- The second-order Taylor extension of `log` used by `nplog` below `eps`:
`log(eps) - darr * (1 + darr / 2)` with `darr = 1 - a / eps`. -/
def nplog_smaller (eps a : ℝ) : ℝ :=
  Real.log eps - (1 - a / eps) * (1 + (1 - a / eps) / 2)

/-- The value array of `nplog`: `np.log(arr)` when `np.min(arr) > eps`, else
`np.where(arr > eps, np.log(np.maximum(arr, eps)), log(eps) - darr*(1+darr/2))`. -/
def nplogVal (arr : List ℝ) (eps : ℝ) : List ℝ :=
  if eps < minList arr then arr.map Real.log
  else arr.map (fun a => if eps < a then Real.log (max a eps) else nplog_smaller eps a)

/-- The first-derivative array of `nplog`: `1 / arr` when `np.min(arr) > eps`, else
`np.where(arr > eps, 1 / np.maximum(arr, eps), (1 + darr) / eps)`. -/
def nplogDer1 (arr : List ℝ) (eps : ℝ) : List ℝ :=
  if eps < minList arr then arr.map (fun a => 1 / a)
  else arr.map (fun a => if eps < a then 1 / max a eps else (1 + (1 - a / eps)) / eps)

/-- The second-derivative array of `nplog`: `-1 / (arr * arr)` when
`np.min(arr) > eps`, else
`np.where(arr > eps, -1 / (arreps * arreps), -1 / (eps * eps))`. -/
def nplogDer2 (arr : List ℝ) (eps : ℝ) : List ℝ :=
  if eps < minList arr then arr.map (fun a => -(1 / (a * a)))
  else
    arr.map (fun a =>
      if eps < a then -(1 / (max a eps * max a eps)) else -(1 / (eps * eps)))

/-- Full `nplog`: aborts when `deriv not in [0, 1, 2]`, otherwise returns the
tuple (modelled as a list of arrays) of value and requested derivatives. -/
def nplog_full (arr : List ℝ) (eps : ℝ) (deriv : ℤ) : NpResult (List (List ℝ)) :=
  if deriv ≠ 0 ∧ deriv ≠ 1 ∧ deriv ≠ 2 then
    Except.error s!"deriv can only be 0, 1, or 2; not {deriv}"
  else if deriv = 0 then Except.ok [nplogVal arr eps]
  else if deriv = 1 then Except.ok [nplogVal arr eps, nplogDer1 arr eps]
  else Except.ok [nplogVal arr eps, nplogDer1 arr eps, nplogDer2 arr eps]

/-- C1: for `a_i > eps`, `nplog` returns `ln(a_i)` at that position; for
`a_i ≤ eps` it returns the second-order Taylor expansion
`ln(eps) - darr * (1 + darr / 2)` with `darr = 1 - a_i / eps`; at the boundary
`a_i = eps` the extended value is `ln(eps)` and the extended first derivative
(returned when `deriv ≥ 1`) is `1 / eps`, matching the direct forms. -/
theorem nplog_safe_and_taylor (arr : List ℝ) (eps : ℝ) (heps : eps ≠ 0) :
    (nplogVal arr eps
      = arr.map (fun a => if eps < a then Real.log a else nplog_smaller eps a))
    ∧ (nplogDer1 arr eps
      = arr.map (fun a => if eps < a then 1 / a else (1 + (1 - a / eps)) / eps))
    ∧ nplog_smaller eps eps = Real.log eps
    ∧ (1 + (1 - eps / eps)) / eps = 1 / eps := by
  have hmax : ∀ a : ℝ, eps < a → max a eps = a := fun a h => max_eq_left h.le
  refine ⟨?_, ?_, ?_, ?_⟩
  · unfold nplogVal
    split
    · next h =>
      refine List.map_congr_left (fun a ha => ?_)
      have : eps < a := lt_of_lt_of_le h (minList_le arr a ha)
      simp [this]
    · refine List.map_congr_left (fun a _ => ?_)
      by_cases h : eps < a
      · simp [h, hmax a h]
      · simp [h]
  · unfold nplogDer1
    split
    · next h =>
      refine List.map_congr_left (fun a ha => ?_)
      have : eps < a := lt_of_lt_of_le h (minList_le arr a ha)
      simp [this]
    · refine List.map_congr_left (fun a _ => ?_)
      by_cases h : eps < a
      · simp [h, hmax a h]
      · simp [h]
  · unfold nplog_smaller
    rw [div_self heps]
    ring
  · rw [div_self heps]
    ring

/-- Witness for C1 at `arr = [2]`, `eps = 1`. -/
theorem nplog_safe_and_taylor_witness :
    (nplogVal [2] 1 = [2].map (fun a => if 1 < a then Real.log a else nplog_smaller 1 a))
    ∧ (nplogDer1 [2] 1
      = [2].map (fun a => if 1 < a then 1 / a else (1 + (1 - a / 1)) / 1))
    ∧ nplog_smaller 1 1 = Real.log 1
    ∧ (1 + (1 - (1 : ℝ) / 1)) / 1 = 1 / 1 :=
  nplog_safe_and_taylor [2] 1 one_ne_zero

/-! ## `npexp` (bsnputils.py, lines 252-330) -/

/-- The value array of `npexp`: `np.exp(arr)` when all arguments lie in
`[lowx, bigx]`; otherwise the clamped exponential overwritten by the
second-order Taylor extensions, `np.where(arr < lowx, ...)` applied last. -/
def npexpVal (arr : List ℝ) (bigx lowx : ℝ) : List ℝ :=
  if maxList arr ≤ bigx ∧ lowx ≤ minList arr then arr.map Real.exp
  else
    arr.map (fun a =>
      if a < lowx then Real.exp lowx * (1 - (lowx - a) * (1 - 0.5 * (lowx - a)))
      else if bigx < a then Real.exp bigx * (1 + (a - bigx) * (1 + 0.5 * (a - bigx)))
      else Real.exp (max (min a bigx) lowx))

/-- The first-derivative array of `npexp`. -/
def npexpDer1 (arr : List ℝ) (bigx lowx : ℝ) : List ℝ :=
  if maxList arr ≤ bigx ∧ lowx ≤ minList arr then arr.map Real.exp
  else
    arr.map (fun a =>
      if a < lowx then Real.exp lowx * (1 - (lowx - a))
      else if bigx < a then Real.exp bigx * (1 + (a - bigx))
      else Real.exp (max (min a bigx) lowx))

/-- The second-derivative array of `npexp`: in the out-of-range branch the
source returns the clamped exponential `exparr` for every element. -/
def npexpDer2 (arr : List ℝ) (bigx lowx : ℝ) : List ℝ :=
  if maxList arr ≤ bigx ∧ lowx ≤ minList arr then arr.map Real.exp
  else arr.map (fun a => Real.exp (max (min a bigx) lowx))

/-- Full `npexp`: aborts when `deriv not in [0, 1, 2]`, otherwise returns the
tuple of value and requested derivatives. -/
def npexp_full (arr : List ℝ) (bigx lowx : ℝ) (deriv : ℤ) :
    NpResult (List (List ℝ)) :=
  if deriv ≠ 0 ∧ deriv ≠ 1 ∧ deriv ≠ 2 then
    Except.error s!"deriv can only be 0, 1, or 2; not {deriv}"
  else if deriv = 0 then Except.ok [npexpVal arr bigx lowx]
  else if deriv = 1 then Except.ok [npexpVal arr bigx lowx, npexpDer1 arr bigx lowx]
  else
    Except.ok
      [npexpVal arr bigx lowx, npexpDer1 arr bigx lowx, npexpDer2 arr bigx lowx]

/-! ## `npxlogx` (bsnputils.py, lines 753-800) -/

/-- Full `npxlogx`: aborts when `deriv not in [0, 1, 2]`; when
`np.min(arr) > eps` it returns `arr * np.log(arr)` alone, whatever `deriv` is;
otherwise the tuple of value and requested derivatives. -/
def npxlogx_full (arr : List ℝ) (eps : ℝ) (deriv : ℤ) : NpResult (List (List ℝ)) :=
  if deriv ≠ 0 ∧ deriv ≠ 1 ∧ deriv ≠ 2 then
    Except.error s!"deriv must be 0, 1, or 2; not {deriv}"
  else if eps < minList arr then Except.ok [arr.map (fun a => a * Real.log a)]
  else
    let xlogval := arr.map (fun a =>
      if eps < a then a * Real.log (max a eps) else a * (a / eps + Real.log eps - 1))
    let dxlogval := arr.map (fun a =>
      if eps < a then 1 + Real.log (max a eps) else Real.log eps + a / eps)
    let d2xlogval := arr.map (fun a => 1 / max a eps)
    if deriv = 0 then Except.ok [xlogval]
    else if deriv = 1 then Except.ok [xlogval, dxlogval]
    else Except.ok [xlogval, dxlogval, d2xlogval]

/-! ## `nppow` (bsnputils.py, lines 326-389) -/

/-- The exponent argument of `nppow`: a Python `int`, a Python `float`, or a
NumPy array.  The `isinstance` tests of the source dispatch on this tag. -/
inductive PowExp where
  | intScalar (b : ℤ)
  | floatScalar (b : ℝ)
  | arrExp (b : List ℝ)

/-- The tuple returned by `nppow` for a scalar exponent `b` with real value
`bval`, where `pw x` is `x ** b`: value for `deriv = 0`, value and the two
first derivatives for `deriv = 1`, those plus the three second derivatives
for `deriv = 2`, and `None` (the function falls off the end) otherwise. -/
def nppow_scalar_arrays (a : List ℝ) (bval : ℝ) (pw : ℝ → ℝ) (deriv : ℤ) :
    Option (List (List ℝ)) :=
  if deriv = 0 then some [a.map pw]
  else if deriv = 1 then
    some [a.map pw, a.map (fun x => bval * pw x / x), a.map (fun x => pw x * Real.log x)]
  else if deriv = 2 then
    some [a.map pw, a.map (fun x => bval * pw x / x), a.map (fun x => pw x * Real.log x),
      a.map (fun x => bval * (bval - 1) * (pw x / x) / x),
      a.map (fun x => pw x / x * (1 + bval * Real.log x)),
      a.map (fun x => pw x * Real.log x * Real.log x)]
  else none

/-- The tuple returned by `nppow` for an array exponent of the same length:
the source computes on the ravelled vectors (the identity on our 1-dim model)
and uses `nplog` for `log_avec`.  Again `None` when `deriv` is not 0, 1 or 2. -/
def nppow_array_arrays (a bv : List ℝ) (deriv : ℤ) : Option (List (List ℝ)) :=
  let ab := List.zipWith (fun x y => x ^ y) a bv
  let log_avec := nplogVal a 1e-30
  if deriv = 0 then some [ab]
  else if deriv = 1 then
    some [ab, List.zipWith (fun x y => x ^ y * y / x) a bv,
      List.zipWith (fun p l => p * l) ab log_avec]
  else if deriv = 2 then
    some [ab, List.zipWith (fun x y => x ^ y * y / x) a bv,
      List.zipWith (fun p l => p * l) ab log_avec,
      List.zipWith (fun x y => y * (y - 1) * (x ^ y / x) / x) a bv,
      List.zipWith (fun xy l => xy.1 ^ xy.2 / xy.1 * (1 + xy.2 * l))
        (a.zip bv) log_avec,
      List.zipWith (fun p l => p * l * l) ab log_avec]
  else none

/-- Full `nppow`: for a float scalar exponent it first aborts when
`np.min(a) < 0`; an int scalar exponent is not checked at all; an array
exponent must have the same shape as `a`.  There is no check on `deriv`. -/
def nppow_full (a : List ℝ) (b : PowExp) (deriv : ℤ) :
    NpResult (Option (List (List ℝ))) :=
  match b with
  | .floatScalar bf =>
      if minList a < 0 then Except.error "All elements of a must be positive!"
      else Except.ok (nppow_scalar_arrays a bf (fun x => x ^ bf) deriv)
  | .intScalar bi =>
      Except.ok (nppow_scalar_arrays a (bi : ℝ) (fun x => x ^ bi) deriv)
  | .arrExp bv =>
      if a.length ≠ bv.length then
        Except.error "b is not a number or an array of the same shape as a!"
      else Except.ok (nppow_array_arrays a bv deriv)

/-! ## Console output of the four smooth extensions -/

/-- One print event of the smooth-extension functions.  The printed text
itself formats machine floats, which we do not model; the event records which
print statement of the source ran. -/
inductive PrintEvent where
  | nplogSmallCount
  | exparrDebug
  | npexpLargeCount
  | npexpSmallCount
  | expvalDebug
  | npxlogxSmallCount
  deriving DecidableEq

/-- Number of elements of `arr` strictly below `eps` (`np.sum(arr < eps)`). -/
def n_small_args (arr : List ℝ) (eps : ℝ) : ℕ :=
  (arr.filter (fun a => decide (a < eps))).length

/-- Print events of a successful `nplog` call: only the verbose warning, and
only when some argument is strictly below `eps`. -/
def nplogPrints (arr : List ℝ) (eps : ℝ) (verbose : Bool) : List PrintEvent :=
  if eps < minList arr then []
  else if verbose = true ∧ 0 < n_small_args arr eps then [.nplogSmallCount]
  else []

/-- Print events of a successful `npexp` call: in the out-of-range branch the
source unconditionally prints `exparr` and `expval` (debug statements), plus
the two verbose count messages when `verbose` is set. -/
def npexpPrints (arr : List ℝ) (bigx lowx : ℝ) (verbose : Bool) : List PrintEvent :=
  if maxList arr ≤ bigx ∧ lowx ≤ minList arr then []
  else
    [PrintEvent.exparrDebug]
      ++ (if verbose = true then [PrintEvent.npexpLargeCount, PrintEvent.npexpSmallCount] else [])
      ++ [PrintEvent.expvalDebug]

/-- Print events of a successful `nppow` call: the source contains no print
statement. -/
def nppowPrints (_a : List ℝ) (_b : PowExp) (_deriv : ℤ) : List PrintEvent := []

/-- Print events of a successful `npxlogx` call: only the verbose warning,
and only when some argument is strictly below `eps`. -/
def npxlogxPrints (arr : List ℝ) (eps : ℝ) (verbose : Bool) : List PrintEvent :=
  if eps < minList arr then []
  else if verbose = true ∧ 0 < n_small_args arr eps then [.npxlogxSmallCount]
  else []

/-! ## Claims C3, C5, C8 -/

/-- C3 (counterexample): `nppow` performs no check on `deriv` at all: with an
int scalar exponent and `deriv = 3` it silently returns `None` instead of
aborting, and `npxlogx` with every argument above `eps` returns the bare value
array even for `deriv = 1`. -/
theorem nppow_no_deriv_check_counterexample :
    nppow_full [1] (.intScalar 2) 3 = Except.ok none
    ∧ npxlogx_full [1] (1 / 2) 1 = Except.ok [[(1 : ℝ) * Real.log 1]] := by
  constructor
  · rfl
  · have h2 : (1 / 2 : ℝ) < minList [1] := by norm_num [minList]
    unfold npxlogx_full
    rw [if_neg (by decide), if_pos h2]
    rfl

/-- C3 (amended): `nplog`, `npexp` and `npxlogx` abort with a descriptive
message when `deriv` is not 0, 1 or 2, while `nppow` silently returns `None`;
for `deriv` in `{0, 1, 2}`, `nplog` and `npexp` return tuples of length
`deriv + 1`, `npxlogx` does so only when some argument is `≤ eps` (otherwise
it returns the bare value array), and `nppow` returns tuples of lengths
1, 3, 6. -/
theorem smooth_functions_deriv_handling (arr a : List ℝ) (eps bigx lowx : ℝ)
    (bi : ℤ) (deriv : ℤ) :
    (deriv ≠ 0 ∧ deriv ≠ 1 ∧ deriv ≠ 2 →
      nplog_full arr eps deriv
          = Except.error s!"deriv can only be 0, 1, or 2; not {deriv}"
      ∧ npexp_full arr bigx lowx deriv
          = Except.error s!"deriv can only be 0, 1, or 2; not {deriv}"
      ∧ npxlogx_full arr eps deriv
          = Except.error s!"deriv must be 0, 1, or 2; not {deriv}"
      ∧ nppow_full a (.intScalar bi) deriv = Except.ok none)
    ∧ (deriv = 0 ∨ deriv = 1 ∨ deriv = 2 →
      (nplog_full arr eps deriv).map List.length = Except.ok (deriv.toNat + 1)
      ∧ (npexp_full arr bigx lowx deriv).map List.length
          = Except.ok (deriv.toNat + 1)
      ∧ (npxlogx_full arr eps deriv).map List.length
          = Except.ok (if eps < minList arr then 1 else deriv.toNat + 1)
      ∧ (nppow_full a (.intScalar bi) deriv).map (Option.map List.length)
          = Except.ok (some (if deriv = 0 then 1 else if deriv = 1 then 3 else 6))) := by
  constructor
  · intro h
    refine ⟨?_, ?_, ?_, ?_⟩
    · simp only [nplog_full, if_pos h]
    · simp only [npexp_full, if_pos h]
    · simp only [npxlogx_full, if_pos h]
    · simp only [nppow_full, nppow_scalar_arrays, if_neg h.1, if_neg h.2.1,
        if_neg h.2.2]
  · rintro (rfl | rfl | rfl) <;>
      refine ⟨by simp [nplog_full, Except.map], by simp [npexp_full, Except.map], ?_,
        by simp [nppow_full, nppow_scalar_arrays, Except.map]⟩ <;>
    · by_cases hfast : eps < minList arr
      · simp [npxlogx_full, hfast, Except.map]
      · simp [npxlogx_full, hfast, Except.map]

/-- Witness for C3 (amended) at `deriv = 3` and `deriv = 1`. -/
theorem smooth_functions_deriv_handling_witness :
    (nplog_full [2] 1 3 = Except.error s!"deriv can only be 0, 1, or 2; not {(3 : ℤ)}"
      ∧ npexp_full [2] 50 (-50) 3
          = Except.error s!"deriv can only be 0, 1, or 2; not {(3 : ℤ)}"
      ∧ npxlogx_full [2] 1 3
          = Except.error s!"deriv must be 0, 1, or 2; not {(3 : ℤ)}"
      ∧ nppow_full [2] (.intScalar 5) 3 = Except.ok none)
    ∧ ((nplog_full [2] 1 1).map List.length = Except.ok ((1 : ℤ).toNat + 1)
      ∧ (npexp_full [2] 50 (-50) 1).map List.length = Except.ok ((1 : ℤ).toNat + 1)
      ∧ (npxlogx_full [2] 1 1).map List.length
          = Except.ok (if (1 : ℝ) < minList [2] then 1 else (1 : ℤ).toNat + 1)
      ∧ (nppow_full [2] (.intScalar 5) 1).map (Option.map List.length)
          = Except.ok (some (if (1 : ℤ) = 0 then 1 else if (1 : ℤ) = 1 then 3 else 6))) :=
  ⟨(smooth_functions_deriv_handling [2] [2] 1 50 (-50) 5 3).1 (by decide),
   (smooth_functions_deriv_handling [2] [2] 1 50 (-50) 5 1).2 (Or.inr (Or.inl rfl))⟩

/-- C5 (counterexample): `nppow` does not abort on a zero element with a float
exponent, nor on a negative element with an int exponent; it returns values. -/
theorem nppow_nonpositive_no_abort_counterexample :
    nppow_full [0] (.floatScalar 2) 0 = Except.ok (some [[(0 : ℝ)]])
    ∧ nppow_full [-1] (.intScalar 2) 0 = Except.ok (some [[(1 : ℝ)]]) := by
  constructor
  · have hm : ¬ minList [(0 : ℝ)] < 0 := by norm_num [minList]
    simp only [nppow_full, nppow_scalar_arrays, if_neg hm, if_pos rfl, List.map,
      if_true]
    rw [Real.zero_rpow (by norm_num : (2 : ℝ) ≠ 0)]
  · simp only [nppow_full, nppow_scalar_arrays, if_pos rfl, List.map]
    norm_num

/-- C5 (amended): `nppow` aborts exactly when the exponent is a float scalar
and `np.min(a) < 0` (an int scalar exponent is never checked); in every
non-aborting scalar case it returns `a ** b` elementwise. -/
theorem nppow_abort_only_float_negative (a : List ℝ) (bf : ℝ) (bi deriv : ℤ) :
    ((∃ e, nppow_full a (.floatScalar bf) deriv = Except.error e) ↔ minList a < 0)
    ∧ (∀ e, nppow_full a (.intScalar bi) deriv ≠ Except.error e)
    ∧ (0 < minList a → nppow_full a (.floatScalar bf) 0
        = Except.ok (some [a.map (fun x => x ^ bf)]))
    ∧ nppow_full a (.intScalar bi) 0 = Except.ok (some [a.map (fun x => x ^ bi)]) := by
  refine ⟨?_, ?_, ?_, ?_⟩
  · constructor
    · rintro ⟨e, he⟩
      by_contra hm
      simp [nppow_full, hm] at he
    · intro hm
      exact ⟨"All elements of a must be positive!", by simp [nppow_full, hm]⟩
  · intro e
    simp [nppow_full]
  · intro hm
    have hm2 : ¬ minList a < 0 := not_lt.mpr hm.le
    simp [nppow_full, hm2, nppow_scalar_arrays]
  · simp [nppow_full, nppow_scalar_arrays]

/-- Witness for C5 (amended) at `a = [1]`, `bf = 2`, `bi = 5`. -/
theorem nppow_abort_only_float_negative_witness :
    0 < minList [(1 : ℝ)]
    ∧ nppow_full [1] (.floatScalar 2) 0
        = Except.ok (some [[(1 : ℝ)].map (fun x => x ^ (2 : ℝ))]) :=
  ⟨by norm_num [minList],
   (nppow_abort_only_float_negative [1] 2 5 0).2.2.1 (by norm_num [minList])⟩

/-- C8: apart from `npexp`, the smooth extensions print nothing when
`verbose = False`; but `npexp` unconditionally prints the debug lines
`exparr` and `expval` whenever some argument is out of range, e.g. on
`arr = [60]` with the default bounds. -/
theorem npexp_prints_without_verbose (arr a2 : List ℝ) (eps : ℝ)
    (b : PowExp) (deriv : ℤ) :
    nplogPrints arr eps false = []
    ∧ npxlogxPrints arr eps false = []
    ∧ nppowPrints a2 b deriv = []
    ∧ npexpPrints [60] 50 (-50) false = [.exparrDebug, .expvalDebug] := by
  refine ⟨?_, ?_, rfl, ?_⟩
  · unfold nplogPrints
    split
    · rfl
    · simp
  · unfold npxlogxPrints
    split
    · rfl
    · simp
  · have h : ¬ (maxList [(60 : ℝ)] ≤ 50 ∧ (-50 : ℝ) ≤ minList [60]) := by
      norm_num [maxList, minList]
    simp [npexpPrints, h]

/-! ## `distance_covariances.py` -/

/-- `_double_decenter`: subtract column means and row means, add back the
grand mean (with the Szekely-Rizzo factors when `unbiased`), and zero the
diagonal when `unbiased`. -/
def double_decenter {n : ℕ} (A : Fin n → Fin n → ℝ) (unbiased : Bool) :
    Fin n → Fin n → ℝ :=
  let A_1 : Fin n → ℝ := fun j => ∑ i, A i j
  let A_2 : Fin n → ℝ := fun i => ∑ j, A i j
  let A_0 : ℝ := ∑ j, A_1 j
  let fac2 : ℝ := if unbiased then ((n : ℝ) - 2) else n
  let fac1 : ℝ := if unbiased then ((n : ℝ) - 1) else n
  let A_dd : Fin n → Fin n → ℝ := fun i j =>
    A i j - A_1 j / fac2 - A_2 i / fac2 + A_0 / (fac1 * fac2)
  if unbiased then fun i j => if i = j then 0 else A_dd i j else A_dd

/-- `_dcov_prod` on two square matrices of the same size (the size check of
the source is enforced by the common type here). -/
def dcov_prod {n : ℕ} (A B : Fin n → Fin n → ℝ) (unbiased : Bool) : ℝ :=
  let fac3 : ℝ := if unbiased then ((n : ℝ) - 3) else n
  (∑ i, ∑ j, A i j * B i j) / (n * fac3)

/-- The `DcovResults` dataclass. -/
structure DcovResults (n : ℕ) where
  dcov : ℝ
  dcov_stat : ℝ
  dcor : ℝ
  X_dd : Fin n → Fin n → ℝ
  Y_dd : Fin n → Fin n → ℝ
  unbiased : Bool

/-- The `PdcovResults` dataclass. -/
structure PdcovResults (n : ℕ) where
  pdcov : ℝ
  pdcov_stat : ℝ
  pdcor : ℝ
  X_dd : Fin n → Fin n → ℝ
  Y_dd : Fin n → Fin n → ℝ
  Z_dd : Fin n → Fin n → ℝ

/-- Resampling `A[draws, :][:, draws]` along both axes. -/
def reindex {n : ℕ} (σ : Fin n → Fin n) (A : Fin n → Fin n → ℝ) :
    Fin n → Fin n → ℝ :=
  fun i j => A (σ i) (σ j)

/-- `_dcov_bootstrap`, parametrised by the random draws: the `ndraws`
bootstrapped statistics, each `n * _dcov_prod` of the resampled matrices. -/
def dcov_bootstrap {n : ℕ} (X_dd Y_dd : Fin n → Fin n → ℝ) (unbiased : Bool)
    (ndraws : ℕ) (draws : Fin ndraws → Fin n → Fin n) : Fin ndraws → ℝ :=
  fun k =>
    (n : ℝ) * dcov_prod (reindex (draws k) X_dd) (reindex (draws k) Y_dd) unbiased

/-- `pvalue_dcov`: `(1 + np.sum(dcov_stat < dcov_stats_boot)) / (1 + ndraws)`,
the boolean sum modelled as a sum of indicators. -/
def pvalue_dcov {n : ℕ} (r : DcovResults n) (ndraws : ℕ)
    (draws : Fin ndraws → Fin n → Fin n) : ℝ :=
  (1 + ∑ k, if r.dcov_stat < dcov_bootstrap r.X_dd r.Y_dd r.unbiased ndraws draws k
      then (1 : ℝ) else 0) / (1 + ndraws)

/-- `_pdcovs_bootstrap`, parametrised by the random draws; `unbiased = True`
throughout, as in the source. -/
def pdcovs_bootstrap {n : ℕ} (X_dd Y_dd Z_dd : Fin n → Fin n → ℝ)
    (ndraws : ℕ) (draws : Fin ndraws → Fin n → Fin n) : Fin ndraws → ℝ :=
  fun k =>
    let Xi := reindex (draws k) X_dd
    let Yi := reindex (draws k) Y_dd
    let Zi := reindex (draws k) Z_dd
    let C_XY := dcov_prod Xi Yi true
    let C_XZ := dcov_prod Xi Zi true
    let C_YZ := dcov_prod Yi Zi true
    let C_ZZ := dcov_prod Zi Zi true
    (n : ℝ) * (C_XY - C_XZ * C_YZ / C_ZZ)

/-- `pvalue_pdcov`: same Laplace-smoothed strict count as `pvalue_dcov`. -/
def pvalue_pdcov {n : ℕ} (r : PdcovResults n) (ndraws : ℕ)
    (draws : Fin ndraws → Fin n → Fin n) : ℝ :=
  (1 + ∑ k, if r.pdcov_stat < pdcovs_bootstrap r.X_dd r.Y_dd r.Z_dd ndraws draws k
      then (1 : ℝ) else 0) / (1 + ndraws)

/-- Modelled from the spec words for C6 only: the p-value counting bootstrap
statistics at least as extreme (greater than *or equal to*) the observed
statistic, to be compared with the implemented `pvalue_dcov`. -/
def pvalue_dcov_claimed {n : ℕ} (r : DcovResults n) (ndraws : ℕ)
    (draws : Fin ndraws → Fin n → Fin n) : ℝ :=
  (1 + ∑ k, if dcov_bootstrap r.X_dd r.Y_dd r.unbiased ndraws draws k ≥ r.dcov_stat
      then (1 : ℝ) else 0) / (1 + ndraws)

/-- C6 (counterexample): with `n = 1`, all-ones decentered matrices,
`dcov_stat = 1` and one identity draw, the bootstrap statistic equals the
observed one exactly; the code returns 1/2 (the tie is not counted) while the
claim's greater-or-equal counting gives 1. -/
theorem pvalue_dcov_tie_not_counted :
    pvalue_dcov (n := 1) ⟨1, 1, 1, fun _ _ => 1, fun _ _ => 1, false⟩ 1 (fun _ => id)
      = 1 / 2
    ∧ pvalue_dcov_claimed (n := 1)
        ⟨1, 1, 1, fun _ _ => 1, fun _ _ => 1, false⟩ 1 (fun _ => id) = 1
    ∧ (1 / 2 : ℝ) ≠ 1 := by
  have hboot : dcov_bootstrap (n := 1) (fun _ _ => 1) (fun _ _ => 1) false 1
      (fun _ => id) = fun _ => 1 := by
    funext k
    simp [dcov_bootstrap, dcov_prod, reindex]
  refine ⟨?_, ?_, by norm_num⟩
  · simp [pvalue_dcov, hboot]
    norm_num
  · simp [pvalue_dcov_claimed, hboot]

/-- C6 (amended): the returned p-value is `(1 + k) / (1 + ndraws)` where `k`
counts the bootstrap statistics *strictly greater* than the observed one;
a bootstrap draw exactly equal to the observed statistic is not counted. -/
theorem pvalue_counts_strict (n : ℕ) (r : DcovResults n) (pr : PdcovResults n)
    (ndraws : ℕ) (draws pdraws : Fin ndraws → Fin n → Fin n) :
    pvalue_dcov r ndraws draws
      = (1 + ((Finset.univ.filter (fun k =>
            dcov_bootstrap r.X_dd r.Y_dd r.unbiased ndraws draws k > r.dcov_stat)).card
          : ℝ)) / (1 + ndraws)
    ∧ pvalue_pdcov pr ndraws pdraws
      = (1 + ((Finset.univ.filter (fun k =>
            pdcovs_bootstrap pr.X_dd pr.Y_dd pr.Z_dd ndraws pdraws k
              > pr.pdcov_stat)).card : ℝ)) / (1 + ndraws) := by
  constructor
  · unfold pvalue_dcov
    rw [Finset.sum_boole]
  · unfold pvalue_pdcov
    rw [Finset.sum_boole]

/-- Laplace-smoothed indicator counts stay within the claimed interval. -/
theorem pvalue_bounds_aux (m : ℕ) (stat : ℝ) (boot : Fin m → ℝ) :
    1 / (1 + (m : ℝ))
        ≤ (1 + ∑ k, if stat < boot k then (1 : ℝ) else 0) / (1 + m)
    ∧ (1 + ∑ k, if stat < boot k then (1 : ℝ) else 0) / (1 + m) ≤ 1 := by
  have hd : (0 : ℝ) < 1 + m := by positivity
  have h0 : (0 : ℝ) ≤ ∑ k, if stat < boot k then (1 : ℝ) else 0 :=
    Finset.sum_nonneg fun k _ => by positivity
  have h1 : (∑ k, if stat < boot k then (1 : ℝ) else 0) ≤ m := by
    calc (∑ k, if stat < boot k then (1 : ℝ) else 0)
        ≤ ∑ _k : Fin m, (1 : ℝ) := by
          refine Finset.sum_le_sum fun k _ => ?_
          split <;> norm_num
      _ = m := by simp
  constructor
  · rw [div_le_div_iff₀ hd hd]
    nlinarith
  · rw [div_le_one hd]
    linarith

/-- C10: the reported p-values always lie in `[1/(1+ndraws), 1]`. -/
theorem pvalue_in_laplace_interval (n : ℕ) (r : DcovResults n)
    (pr : PdcovResults n) (ndraws : ℕ)
    (draws pdraws : Fin ndraws → Fin n → Fin n) :
    1 / (1 + (ndraws : ℝ)) ≤ pvalue_dcov r ndraws draws
    ∧ pvalue_dcov r ndraws draws ≤ 1
    ∧ 1 / (1 + (ndraws : ℝ)) ≤ pvalue_pdcov pr ndraws pdraws
    ∧ pvalue_pdcov pr ndraws pdraws ≤ 1 := by
  obtain ⟨h1, h2⟩ := pvalue_bounds_aux ndraws r.dcov_stat
    (dcov_bootstrap r.X_dd r.Y_dd r.unbiased ndraws draws)
  obtain ⟨h3, h4⟩ := pvalue_bounds_aux ndraws pr.pdcov_stat
    (pdcovs_bootstrap pr.X_dd pr.Y_dd pr.Z_dd ndraws pdraws)
  exact ⟨h1, h2, h3, h4⟩

/-- C9: subtracting column means and row means and adding back the grand mean
(`unbiased = False`) annihilates every row sum and every column sum. -/
theorem double_decenter_zero_sums (n : ℕ) (A : Fin n → Fin n → ℝ) (i : Fin n) :
    (∑ j, double_decenter A false i j = 0)
    ∧ (∑ k, double_decenter A false k i = 0) := by
  have hn : (n : ℝ) ≠ 0 := Nat.cast_ne_zero.mpr i.pos.ne'
  have hexp : ∀ i2 j : Fin n, double_decenter A false i2 j
      = A i2 j - (∑ k, A k j) / n - (∑ k, A i2 k) / n
        + (∑ j2, ∑ k, A k j2) / ((n : ℝ) * n) := by
    intro i2 j
    simp [double_decenter]
  constructor
  · rw [Finset.sum_congr rfl (fun j _ => hexp i j)]
    simp only [Finset.sum_add_distrib, Finset.sum_sub_distrib, ← Finset.sum_div,
      Finset.sum_const, Finset.card_univ, Fintype.card_fin, nsmul_eq_mul]
    field_simp
    ring
  · rw [Finset.sum_congr rfl (fun k _ => hexp k i)]
    simp only [Finset.sum_add_distrib, Finset.sum_sub_distrib, ← Finset.sum_div,
      Finset.sum_const, Finset.card_univ, Fintype.card_fin, nsmul_eq_mul]
    rw [Finset.sum_comm]
    field_simp
    ring

/-! ## `gaussian_expectation` (bsnputils.py, lines 890-944) -/

/-- Dot product `v @ w` of two vectors. -/
def dotList (v w : List ℝ) : ℝ := (List.zipWith (fun a b => a * b) v w).sum

/-- The element-wise accumulation of the non-vectorized branch:
`integral_val = weights[0] * f(nodes[0])` then `+= weights[i] * f(nodes[i])`
for the remaining indices (the source indexes `weights[0]`, so this branch
needs a nonempty node list; the value on empty input is arbitrary). -/
def accumWeighted (f : ℝ → ℝ) : List ℝ → List ℝ → ℝ
  | n0 :: ns, w0 :: ws =>
      (ns.zip ws).foldl (fun acc p => acc + p.2 * f p.1) (w0 * f n0)
  | _, _ => 0

/-- `gaussian_expectation`, parametrised by the quadrature generator standing
for `gauher` (whose Newton outputs are transcendental) and with the `pars`
argument already applied to the integrand `f`.  Caller-supplied nodes must
come with weights of the same length; note the source message for a missing
`w` is written backwards, and the mismatch message is a literal string (the
source forgot the f-prefix on the f-string). -/
def gaussian_expectation (gauherNW : ℕ → List ℝ × List ℝ) (f : ℝ → ℝ)
    (vectorized : Bool) (nq : ℕ) (x w : Option (List ℝ)) : NpResult ℝ :=
  match x with
  | none =>
      let nw := gauherNW nq
      let nodes := nw.1.map (fun t => t * Real.sqrt 2)
      let weights := nw.2.map (fun t => t / Real.sqrt Real.pi)
      Except.ok (if vectorized then dotList (nodes.map f) weights
        else accumWeighted f nodes weights)
  | some xs =>
      match w with
      | none => Except.error "x is None but w is not"
      | some ws =>
          if ws.length ≠ xs.length then
            Except.error "x has \x7bx.size\x7d elements and w has \x7bw.size\x7d"
          else
            let nodes := xs.map (fun t => t * Real.sqrt 2)
            let weights := ws.map (fun t => t / Real.sqrt Real.pi)
            Except.ok (if vectorized then dotList (nodes.map f) weights
              else accumWeighted f nodes weights)

theorem accum_core (f : ℝ → ℝ) (xs : List ℝ) :
    ∀ (ws : List ℝ) (init : ℝ),
    ((xs.map (fun t => t * Real.sqrt 2)).zip
        (ws.map (fun t => t / Real.sqrt Real.pi))).foldl
        (fun acc p => acc + p.2 * f p.1) init
      = init + (List.zipWith
          (fun x w2 => w2 / Real.sqrt Real.pi * f (x * Real.sqrt 2)) xs ws).sum := by
  induction xs with
  | nil => intro ws init; simp
  | cons x xr ih =>
    intro ws init
    cases ws with
    | nil => simp
    | cons w wr =>
      simp only [List.map_cons, List.zip_cons_cons, List.foldl_cons,
        List.zipWith_cons_cons, List.sum_cons, ih wr]
      ring

theorem dot_maps (f : ℝ → ℝ) (xs : List ℝ) :
    ∀ ws : List ℝ,
    dotList ((xs.map (fun t => t * Real.sqrt 2)).map f)
        (ws.map (fun t => t / Real.sqrt Real.pi))
      = (List.zipWith
          (fun x w2 => w2 / Real.sqrt Real.pi * f (x * Real.sqrt 2)) xs ws).sum := by
  induction xs with
  | nil => intro ws; simp [dotList]
  | cons x xr ih =>
    intro ws
    cases ws with
    | nil => simp [dotList]
    | cons w wr =>
      simp only [List.map_cons, dotList, List.zipWith_cons_cons, List.sum_cons]
      have := ih wr
      simp only [dotList] at this
      rw [this, mul_comm]

/-- C7: with caller-supplied equal-length nodes and weights, the vectorized
and element-wise paths of `gaussian_expectation` agree and both equal the
weighted sum of `(w_i / sqrt(pi)) * f(x_i * sqrt(2))`; a supplied `x` without
`w`, or a length mismatch, aborts. -/
theorem gaussian_expectation_vectorized_agrees (gh : ℕ → List ℝ × List ℝ)
    (f : ℝ → ℝ) (nq : ℕ) (xs ws ws2 : List ℝ) (b : Bool)
    (hlen : ws.length = xs.length) (hne : xs ≠ [])
    (hbad : ws2.length ≠ xs.length) :
    gaussian_expectation gh f true nq (some xs) (some ws)
      = Except.ok ((List.zipWith
          (fun x w2 => w2 / Real.sqrt Real.pi * f (x * Real.sqrt 2)) xs ws).sum)
    ∧ gaussian_expectation gh f false nq (some xs) (some ws)
      = Except.ok ((List.zipWith
          (fun x w2 => w2 / Real.sqrt Real.pi * f (x * Real.sqrt 2)) xs ws).sum)
    ∧ gaussian_expectation gh f b nq (some xs) none
      = Except.error "x is None but w is not"
    ∧ gaussian_expectation gh f b nq (some xs) (some ws2)
      = Except.error "x has \x7bx.size\x7d elements and w has \x7bw.size\x7d" := by
  have hlen2 : ¬ ws.length ≠ xs.length := by omega
  refine ⟨?_, ?_, rfl, ?_⟩
  · simp only [gaussian_expectation, if_neg hlen2, if_true]
    rw [dot_maps]
  · simp only [gaussian_expectation, if_neg hlen2, Bool.false_eq_true, if_false]
    obtain ⟨x0, xr, rfl⟩ : ∃ x0 xr, xs = x0 :: xr := by
      cases xs with
      | nil => exact absurd rfl hne
      | cons x0 xr => exact ⟨x0, xr, rfl⟩
    obtain ⟨w0, wr, rfl⟩ : ∃ w0 wr, ws = w0 :: wr := by
      cases ws with
      | nil => simp at hlen
      | cons w0 wr => exact ⟨w0, wr, rfl⟩
    simp only [List.map_cons, accumWeighted, List.zipWith_cons_cons, List.sum_cons]
    rw [accum_core]
  · simp only [gaussian_expectation, if_pos hbad]

/-- Witness for C7 at `xs = [0]`, `ws = [1]`, `ws2 = []`, `f = id`. -/
theorem gaussian_expectation_vectorized_agrees_witness :
    gaussian_expectation (fun _ => ([], [])) id true 16 (some [0]) (some [1])
      = Except.ok ((List.zipWith
          (fun x w2 => w2 / Real.sqrt Real.pi * id (x * Real.sqrt 2)) [0] [1]).sum)
    ∧ gaussian_expectation (fun _ => ([], [])) id false 16 (some [0]) (some [1])
      = Except.ok ((List.zipWith
          (fun x w2 => w2 / Real.sqrt Real.pi * id (x * Real.sqrt 2)) [0] [1]).sum)
    ∧ gaussian_expectation (fun _ => ([], [])) id true 16 (some [0]) none
      = Except.error "x is None but w is not"
    ∧ gaussian_expectation (fun _ => ([], [])) id true 16 (some [0]) (some [])
      = Except.error "x has \x7bx.size\x7d elements and w has \x7bw.size\x7d" :=
  gaussian_expectation_vectorized_agrees (fun _ => ([], [])) id 16 [0] [1] [] true
    rfl (List.cons_ne_nil 0 []) (by decide)

/-! ## `gauher` (bsnputils.py, lines 801-852): the Newton loop guard -/

/-- The tolerance `EPS = 1.0e-14` of `gauher`. -/
def gauherEPS : ℝ := 1e-14

/-- The iteration budget `MAXIT = 10` of `gauher`. -/
def MAXIT : ℕ := 10

/-- The inner Newton loop of `gauher` for one root, abstracted over the
update map `step` (one update `z = z1 - p1 / pp`): `r` iterations remain,
`its` is the current Python loop index.  Each iteration updates `z` and then
breaks when two consecutive iterates are within `EPS`; the returned `ℕ` is
the value the variable `its` holds after the `for its in range(MAXIT)` loop,
whether it ended by `break` or by exhaustion. -/
def gauherNewton (step : ℝ → ℝ) : ℕ → ℕ → ℝ → ℝ × ℕ
  | 0, its, z => (z, its)
  | r + 1, its, z =>
      let z2 := step z
      if |z2 - z| ≤ gauherEPS then (z2, its)
      else if r = 0 then (z2, its) else gauherNewton step r (its + 1) z2

theorem gauherNewton_its_le (step : ℝ → ℝ) :
    ∀ (r its : ℕ) (z : ℝ), 1 ≤ r → (gauherNewton step r its z).2 + 1 ≤ its + r := by
  intro r
  induction r with
  | zero => intro its z h; omega
  | succ r ih =>
    intro its z _
    simp only [gauherNewton]
    split
    · simp only
      omega
    · split
      · simp only
        omega
      · next hr =>
        have := ih (its + 1) (step z) (by omega)
        omega

/-- C4: the loop index after the Newton loop is always at most `MAXIT - 1`
(for every update map, converging or not), so the guard `its >= MAXIT` that
precedes `sys.exit("too many iterations in gauher")` never fires: `gauher`
cannot abort; with the never-converging update `z + 1` the loop simply
exhausts its budget and leaves `its = 9`. -/
theorem gauher_abort_unreachable :
    (∀ (step : ℝ → ℝ) (z0 : ℝ), (gauherNewton step MAXIT 0 z0).2 < MAXIT)
    ∧ (gauherNewton (fun z => z + 1) MAXIT 0 0).2 = MAXIT - 1 := by
  constructor
  · intro step z0
    have h1 : MAXIT = 10 := rfl
    have h2 := gauherNewton_its_le step MAXIT 0 z0 (by omega)
    omega
  · have hstep : ∀ z : ℝ, ¬ |(fun z => z + 1) z - z| ≤ gauherEPS := by
      intro z
      simp only [add_sub_cancel_left, abs_one, gauherEPS]
      norm_num
    have h1 : MAXIT = 10 := rfl
    rw [h1]
    norm_num [gauherNewton, gauherEPS]

/-! ## Node and weight placement of `gauher` / `gauleg` (C2) -/

/-- One pass of the root-placement loop: write `zi` at index `i`, then `-zi`
at the mirror index `n - 1 - i`, the second write overwriting the first when
the two indices coincide (source order `x[i] = z; x[n - 1 - i] = -z` in
`gauher`; `gauleg` writes `x[i - 1] = -z; x[n - i] = z`, the same pattern
applied to `-z`). -/
def writePairX (x : ℕ → ℝ) (n i : ℕ) (zi : ℝ) : ℕ → ℝ :=
  Function.update (Function.update x i zi) (n - 1 - i) (-zi)

/-- Mirror writes for the weights: the same value at `i` and `n - 1 - i`. -/
def writePairW (w : ℕ → ℝ) (n i : ℕ) (wi : ℝ) : ℕ → ℝ :=
  Function.update (Function.update w i wi) (n - 1 - i) wi

/-- Node array after `k` iterations of the placement loop, with `z i` the
converged Newton iterate of iteration `i`; unwritten cells hold the
`np.zeros` initial value. -/
def quadLoopX (n : ℕ) (z : ℕ → ℝ) : ℕ → (ℕ → ℝ)
  | 0 => fun _ => 0
  | k + 1 => writePairX (quadLoopX n z k) n k (z k)

/-- Weight array after `k` iterations, with `wv i` the weight computed at
iteration `i`. -/
def quadLoopW (n : ℕ) (wv : ℕ → ℝ) : ℕ → (ℕ → ℝ)
  | 0 => fun _ => 0
  | k + 1 => writePairW (quadLoopW n wv k) n k (wv k)

theorem quadLoopX_spec (n : ℕ) (z : ℕ → ℝ) :
    ∀ k : ℕ, k ≤ (n + 1) / 2 → ∀ j : ℕ, j < n →
    quadLoopX n z k j
      = if j = n - 1 - j then (if j < k then -(z j) else 0)
        else if n - 1 - j < k then -(z (n - 1 - j))
        else if j < k then z j
        else 0 := by
  intro k
  induction k with
  | zero =>
    intro _ j _
    simp [quadLoopX]
  | succ k ih =>
    intro hk j hj
    have hkk : k ≤ (n + 1) / 2 := by omega
    have hkn : k ≤ n - 1 := by omega
    have hjn : j ≤ n - 1 := by omega
    simp only [quadLoopX, writePairX, Function.update_apply]
    by_cases hjm : j = n - 1 - k
    · rw [if_pos hjm]
      have hkj : n - 1 - j = k := by omega
      by_cases hmid : j = n - 1 - j
      · have hjk : j = k := by omega
        rw [if_pos hmid, if_pos (by omega : j < k + 1), hjk]
      · rw [if_neg hmid, if_pos (by omega : n - 1 - j < k + 1), hkj]
    · rw [if_neg hjm]
      by_cases hjk : j = k
      · rw [if_pos hjk]
        have hmid : ¬ j = n - 1 - j := by omega
        rw [if_neg hmid]
        have h1 : ¬ n - 1 - j < k + 1 := by omega
        rw [if_neg h1, if_pos (by omega : j < k + 1), hjk]
      · rw [if_neg hjk, ih hkk j hj]
        have h2 : n - 1 - j ≠ k := by omega
        by_cases hmid : j = n - 1 - j
        · rw [if_pos hmid, if_pos hmid]
          by_cases h5 : j < k
          · rw [if_pos h5, if_pos (by omega : j < k + 1)]
          · rw [if_neg h5, if_neg (by omega : ¬ j < k + 1)]
        · rw [if_neg hmid, if_neg hmid]
          by_cases h5 : n - 1 - j < k
          · rw [if_pos h5, if_pos (by omega : n - 1 - j < k + 1)]
          · rw [if_neg h5, if_neg (by omega : ¬ n - 1 - j < k + 1)]
            by_cases h6 : j < k
            · rw [if_pos h6, if_pos (by omega : j < k + 1)]
            · rw [if_neg h6, if_neg (by omega : ¬ j < k + 1)]

theorem quadLoopW_spec (n : ℕ) (wv : ℕ → ℝ) :
    ∀ k : ℕ, k ≤ (n + 1) / 2 → ∀ j : ℕ, j < n →
    quadLoopW n wv k j
      = if n - 1 - j < k then wv (n - 1 - j)
        else if j < k then wv j
        else 0 := by
  intro k
  induction k with
  | zero =>
    intro _ j _
    simp [quadLoopW]
  | succ k ih =>
    intro hk j hj
    have hkk : k ≤ (n + 1) / 2 := by omega
    have hkn : k ≤ n - 1 := by omega
    have hjn : j ≤ n - 1 := by omega
    simp only [quadLoopW, writePairW, Function.update_apply]
    by_cases hjm : j = n - 1 - k
    · rw [if_pos hjm]
      have hkj : n - 1 - j = k := by omega
      rw [if_pos (by omega : n - 1 - j < k + 1), hkj]
    · rw [if_neg hjm]
      by_cases hjk : j = k
      · rw [if_pos hjk]
        have h1 : ¬ n - 1 - j < k + 1 := by omega
        rw [if_neg h1, if_pos (by omega : j < k + 1), hjk]
      · rw [if_neg hjk, ih hkk j hj]
        have h2 : n - 1 - j ≠ k := by omega
        by_cases h5 : n - 1 - j < k
        · rw [if_pos h5, if_pos (by omega : n - 1 - j < k + 1)]
        · rw [if_neg h5, if_neg (by omega : ¬ n - 1 - j < k + 1)]
          by_cases h6 : j < k
          · rw [if_pos h6, if_pos (by omega : j < k + 1)]
          · rw [if_neg h6, if_neg (by omega : ¬ j < k + 1)]

/-! ## The returned quadrature arrays and their symmetry (C2) -/

/-- The `gauher` node array: `m = (n + 1) // 2` placement iterations with the
converged iterates `z`, then the reversal `x[::-1]`. -/
def gauherX (n : ℕ) (z : ℕ → ℝ) (j : ℕ) : ℝ :=
  quadLoopX n z ((n + 1) / 2) (n - 1 - j)

/-- The `gauher` weight array (returned without reversal). -/
def gauherW (n : ℕ) (wv : ℕ → ℝ) (j : ℕ) : ℝ :=
  quadLoopW n wv ((n + 1) / 2) j

/-- The `gauleg` node array: the source writes `x[i-1] = -z; x[n-i] = z`,
i.e. the placement loop applied to the negated iterates, with no reversal. -/
def gaulegX (n : ℕ) (z : ℕ → ℝ) (j : ℕ) : ℝ :=
  quadLoopX n (fun t => -(z t)) ((n + 1) / 2) j

/-- The `gauleg` weight array. -/
def gaulegW (n : ℕ) (wv : ℕ → ℝ) (j : ℕ) : ℝ :=
  quadLoopW n wv ((n + 1) / 2) j

theorem quadLoopX_antisym_ne (n : ℕ) (z : ℕ → ℝ) (j : ℕ) (hj : j < n)
    (hne : j ≠ n - 1 - j) :
    quadLoopX n z ((n + 1) / 2) j
      = -(quadLoopX n z ((n + 1) / 2) (n - 1 - j)) := by
  have hj2 : n - 1 - j < n := by omega
  have h1 : n - 1 - (n - 1 - j) = j := by omega
  rw [quadLoopX_spec n z _ le_rfl j hj, quadLoopX_spec n z _ le_rfl _ hj2, h1]
  rcases lt_trichotomy j (n - 1 - j) with hlt | heq | hgt
  · have hne2 : ¬ n - 1 - j = j := by omega
    have hjm : j < (n + 1) / 2 := by omega
    have hjm2 : ¬ n - 1 - j < (n + 1) / 2 := by omega
    rw [if_neg hne, if_neg hjm2, if_pos hjm, if_neg hne2, if_pos hjm, neg_neg]
  · exact absurd heq hne
  · have hne2 : ¬ n - 1 - j = j := by omega
    have hjm : ¬ j < (n + 1) / 2 := by omega
    have hjm2 : n - 1 - j < (n + 1) / 2 := by omega
    rw [if_neg hne, if_pos hjm2, if_neg hne2, if_neg hjm, if_pos hjm2]

theorem quadLoopX_middle (n : ℕ) (z : ℕ → ℝ) (hodd : n % 2 = 1) :
    quadLoopX n z ((n + 1) / 2) ((n + 1) / 2 - 1) = -(z ((n + 1) / 2 - 1)) := by
  have hj : (n + 1) / 2 - 1 < n := by omega
  rw [quadLoopX_spec n z _ le_rfl _ hj]
  have hmid : (n + 1) / 2 - 1 = n - 1 - ((n + 1) / 2 - 1) := by omega
  rw [if_pos hmid, if_pos (by omega : (n + 1) / 2 - 1 < (n + 1) / 2)]

theorem quadLoopW_sym (n : ℕ) (wv : ℕ → ℝ) (j : ℕ) (hj : j < n) :
    quadLoopW n wv ((n + 1) / 2) j = quadLoopW n wv ((n + 1) / 2) (n - 1 - j) := by
  have hj2 : n - 1 - j < n := by omega
  have h1 : n - 1 - (n - 1 - j) = j := by omega
  rw [quadLoopW_spec n wv _ le_rfl j hj, quadLoopW_spec n wv _ le_rfl _ hj2, h1]
  rcases lt_trichotomy j (n - 1 - j) with hlt | heq | hgt
  · have hjm : j < (n + 1) / 2 := by omega
    have hjm2 : ¬ n - 1 - j < (n + 1) / 2 := by omega
    rw [if_neg hjm2, if_pos hjm, if_pos hjm]
  · rw [← heq]
  · have hjm : ¬ j < (n + 1) / 2 := by omega
    have hjm2 : n - 1 - j < (n + 1) / 2 := by omega
    rw [if_pos hjm2, if_neg hjm, if_pos hjm2]

/-- C2 (counterexample): in the actual IEEE execution the final Newton
iterate of the middle root is not exactly zero: `gauher(9)` leaves
`2.2420775429197073e-44` (the returned middle node is its negation) and
`gauleg(15)` leaves `1.232595164407831e-32`.  With these measured middle
iterates (any nonzero value exhibits the same failure) the returned node
arrays violate `x[i] == -x[n-1-i]` at the middle index `i = (n-1)/2`. -/
theorem quadrature_middle_antisym_fails :
    gauherX 9 (fun t => if t = 4 then 2.2420775429197073e-44 else 1) 4
      ≠ -(gauherX 9 (fun t => if t = 4 then 2.2420775429197073e-44 else 1)
          (9 - 1 - 4))
    ∧ gaulegX 15 (fun t => if t = 7 then 1.232595164407831e-32 else 1) 7
      ≠ -(gaulegX 15 (fun t => if t = 7 then 1.232595164407831e-32 else 1)
          (15 - 1 - 7)) := by
  constructor
  · have h1 : gauherX 9 (fun t => if t = 4 then (2.2420775429197073e-44 : ℝ) else 1) 4
        = -(if (4 : ℕ) = 4 then (2.2420775429197073e-44 : ℝ) else 1) :=
      quadLoopX_middle 9 _ (by norm_num)
    rw [show (9 : ℕ) - 1 - 4 = 4 from rfl, h1]
    norm_num
  · have h2 : gaulegX 15 (fun t => if t = 7 then (1.232595164407831e-32 : ℝ) else 1) 7
        = -(-(if (7 : ℕ) = 7 then (1.232595164407831e-32 : ℝ) else 1)) :=
      quadLoopX_middle 15 _ (by norm_num)
    rw [show (15 : ℕ) - 1 - 7 = 7 from rfl, h2]
    norm_num

/-- C2 (amended): for every mirrored pair `i ≠ n-1-i` the `gauher` and
`gauleg` node arrays are antisymmetric (`x[i] = -x[n-1-i]`), and the weight
arrays are symmetric at every index, the middle included; at the middle index
of an odd `n` the returned node equals the negated (`gauher`) resp. plain
(`gauleg`) final Newton iterate of the middle root, so the middle
antisymmetry `x[mid] = -x[mid]` holds exactly when that iterate is exactly
zero — which floating-point execution does not guarantee. -/
theorem quad_symmetry_off_middle (n : ℕ) (zher wher zleg wleg : ℕ → ℝ) (i : ℕ)
    (hi : i < n) :
    (i ≠ n - 1 - i →
      gauherX n zher i = -(gauherX n zher (n - 1 - i))
      ∧ gaulegX n zleg i = -(gaulegX n zleg (n - 1 - i)))
    ∧ gauherW n wher i = gauherW n wher (n - 1 - i)
    ∧ gaulegW n wleg i = gaulegW n wleg (n - 1 - i)
    ∧ (n % 2 = 1 →
      gauherX n zher ((n + 1) / 2 - 1) = -(zher ((n + 1) / 2 - 1))
      ∧ gaulegX n zleg ((n + 1) / 2 - 1) = zleg ((n + 1) / 2 - 1)) := by
  have hi2 : n - 1 - i < n := by omega
  have h1 : n - 1 - (n - 1 - i) = i := by omega
  refine ⟨?_, quadLoopW_sym n wher i hi, quadLoopW_sym n wleg i hi, ?_⟩
  · intro hne
    constructor
    · unfold gauherX
      rw [h1]
      have hne2 : n - 1 - i ≠ n - 1 - (n - 1 - i) := by omega
      have h := quadLoopX_antisym_ne n zher (n - 1 - i) hi2 hne2
      rw [h1] at h
      exact h
    · unfold gaulegX
      exact quadLoopX_antisym_ne n (fun t => -(zleg t)) i hi hne
  · intro hodd
    constructor
    · unfold gauherX
      have e : n - 1 - ((n + 1) / 2 - 1) = (n + 1) / 2 - 1 := by omega
      rw [e]
      exact quadLoopX_middle n zher hodd
    · unfold gaulegX
      have h := quadLoopX_middle n (fun t => -(zleg t)) hodd
      rw [h]
      simp

/-- Witness for C2 (amended) at `n = 9`, `i = 0`. -/
theorem quad_symmetry_off_middle_witness :
    (gauherX 9 (fun _ => 3) 0 = -(gauherX 9 (fun _ => 3) (9 - 1 - 0))
      ∧ gaulegX 9 (fun _ => 7) 0 = -(gaulegX 9 (fun _ => 7) (9 - 1 - 0)))
    ∧ gauherW 9 (fun _ => 5) 0 = gauherW 9 (fun _ => 5) (9 - 1 - 0)
    ∧ gaulegW 9 (fun _ => 2) 0 = gaulegW 9 (fun _ => 2) (9 - 1 - 0)
    ∧ (gauherX 9 (fun _ => 3) ((9 + 1) / 2 - 1) = -(3 : ℝ)
      ∧ gaulegX 9 (fun _ => 7) ((9 + 1) / 2 - 1) = (7 : ℝ)) := by
  obtain ⟨h1, h2, h3, h4⟩ := quad_symmetry_off_middle 9 (fun _ => 3) (fun _ => 5)
    (fun _ => 7) (fun _ => 2) 0 (by norm_num)
  exact ⟨h1 (by norm_num), h2, h3, h4 (by norm_num)⟩
